import Mathlib

/-!
# Verification of the dotgithubindexer content-addressable registry

A shallow embedding, in Lean 4, of the pure core of `main.go`:

* text utilities mirroring the `strings` operations the program uses
  (modelled over `List Char`; the program only manipulates ASCII markers),
* `extractCategory` (category classifier),
* `parseUsesString` / `extractActionUses` (reference extractor),
* `computeHash` (SHA-256, hex encoded),
* the collection-index serialization, upsert and manifest operations,
* the garbage-collection directory walks.

Stateful functions are embedded by passing directory contents explicitly:
a collection directory is a list of file names (for garbage collection) or
an association list from file name to content (for the blob store); a
persisted index file is a `String` and loading is explicit parsing.
-/

namespace DotGithubIndexer

/-! ## Text utilities over `List Char`

These mirror the Go `strings` functions used by the program, with a string
modelled as its list of characters (the program's markers are ASCII, where
bytes and runes coincide). -/

/-- Go `unicode.IsSpace` restricted to the ASCII whitespace the program
meets: space, tab, carriage return, line feed. -/
def isSpaceChar (c : Char) : Bool :=
  c = ' ' || c = '\t' || c = '\r' || c = '\n'

/-- Left half of Go `strings.TrimSpace`. -/
def trimLeftL (cs : List Char) : List Char :=
  cs.dropWhile isSpaceChar

/-- Right half of Go `strings.TrimSpace`. -/
def trimRightL (cs : List Char) : List Char :=
  (cs.reverse.dropWhile isSpaceChar).reverse

/-- Go `strings.TrimSpace` on a character list. -/
def trimL (cs : List Char) : List Char :=
  trimRightL (trimLeftL cs)

/-- Does `s` start with `p`?  Mirrors Go `strings.HasPrefix`. -/
def startsWithL : List Char → List Char → Bool
  | [], _ => true
  | _ :: _, [] => false
  | p :: ps, s :: ss => p = s && startsWithL ps ss

/-- Index of the first occurrence of `sub` in `s`, mirroring Go
`strings.Index` (which returns `-1` when absent; we return `none`). -/
def subIdx (sub : List Char) : List Char → Option Nat
  | [] => if startsWithL sub [] then some 0 else none
  | c :: rest =>
    if startsWithL sub (c :: rest) then some 0
    else (subIdx sub rest).map Nat.succ

/-- Go `strings.Contains`. -/
def containsSub (s sub : List Char) : Bool :=
  (subIdx sub s).isSome

/-- Go `strings.Split(s, sep)` for a one-character separator; used by the
program as `strings.Split(content, "\n")`. -/
def splitOnChar (sep : Char) : List Char → List (List Char)
  | [] => [[]]
  | c :: rest =>
    if c = sep then [] :: splitOnChar sep rest
    else ((c :: (splitOnChar sep rest).headI) :: (splitOnChar sep rest).tail)

/-- Go `strings.SplitN(s, sep, 2)` for one-character `sep`, reshaped as an
option: `none` when `sep` does not occur (Go returns a one-element slice),
otherwise the parts before and after the first occurrence. -/
def splitN2At (sep : Char) : List Char → Option (List Char × List Char)
  | [] => none
  | c :: rest =>
    if c = sep then some ([], rest)
    else (splitN2At sep rest).map (fun p => (c :: p.1, p.2))

/-! ## Category classifier (`extractCategory`, main.go) -/

/-- The fixed marker scanned for by the classifier. -/
def categoryMarker : List Char := "# dotgithubindexer:".data

/-- The loop body of `extractCategory`: scan the lines in order; on a line
whose trimmed form starts with the marker, take the trimmed remainder
(`strings.TrimSpace(strings.TrimPrefix(trimmed, ...))`; under the
`HasPrefix` guard the Go trim-marker step is exactly dropping the marker's
length); return it if non-empty, otherwise keep scanning. -/
def extractCategoryLines : List (List Char) → String
  | [] => "Default"
  | line :: rest =>
    let trimmed := trimL line
    if startsWithL categoryMarker trimmed then
      let category := trimL (trimmed.drop categoryMarker.length)
      if category ≠ [] then String.mk category else extractCategoryLines rest
    else extractCategoryLines rest

/-- `extractCategory` from main.go: split the content on newlines and scan
for the first marker line with a non-empty payload; `"Default"` otherwise. -/
def extractCategory (content : String) : String :=
  extractCategoryLines (splitOnChar '\n' content.data)

/-- Claim-side reading of one line of the classifier: the category a single
line yields, if any (marker present after trimming, non-empty remainder). -/
def categoryOfLine (line : List Char) : Option String :=
  let trimmed := trimL line
  if startsWithL categoryMarker trimmed ∧ trimL (trimmed.drop categoryMarker.length) ≠ [] then
    some (String.mk (trimL (trimmed.drop categoryMarker.length)))
  else none

theorem extractCategoryLines_eq_findSome (lines : List (List Char)) :
    extractCategoryLines lines = (lines.findSome? categoryOfLine).getD "Default" := by
  induction lines with
  | nil => rfl
  | cons line rest ih =>
    by_cases hs : startsWithL categoryMarker (trimL line) = true
    · by_cases hc : trimL ((trimL line).drop categoryMarker.length) = []
      · simp [extractCategoryLines, categoryOfLine, hs, hc, List.findSome?, ih]
      · simp [extractCategoryLines, categoryOfLine, hs, hc, List.findSome?]
    · simp [extractCategoryLines, categoryOfLine, hs, List.findSome?, ih]

/-- C3: the classifier returns the trimmed remainder of the first line that,
after trimming, starts with `"# dotgithubindexer:"` with a non-empty
remainder; lines whose remainder trims to empty are skipped (scanning
continues); with no such line the result is `"Default"`. -/
theorem extractCategory_first_marker_line (content : String) :
    extractCategory content
      = (((splitOnChar '\n' content.data).findSome? categoryOfLine).getD "Default") :=
  extractCategoryLines_eq_findSome _

/-! ## Reference extractor: `parseUsesString` (main.go) -/

/-- The literal keyword searched for on each line of the comment re-match. -/
def usesKeyword : List Char := "uses:".data

/-- The separator inserted between a version and its inline comment. -/
def commentSep : List Char := " # ".data

/-- The comment re-match loop of `parseUsesString`: walk the document's
lines; on the first line whose trimmed form contains both `"uses:"` and the
uses-string, look for a `'#'` past the end of the uses-string and append the
trimmed comment when non-empty; then stop (`break`).  Go's
`strings.Index(trimmedLine, usesStr)` cannot be `-1` under the `Contains`
guard, so the `getD 0` default is never taken. -/
def findUsesComment (usesStr version : List Char) : List (List Char) → List Char
  | [] => version
  | line :: rest =>
    let trimmedLine := trimL line
    if containsSub trimmedLine usesKeyword && containsSub trimmedLine usesStr then
      let usesEndIdx := (subIdx usesStr trimmedLine).getD 0 + usesStr.length
      if usesEndIdx < trimmedLine.length then
        match subIdx ['#'] (trimmedLine.drop usesEndIdx) with
        | some commentIdx =>
          let comment := trimL ((trimmedLine.drop usesEndIdx).drop (commentIdx + 1))
          if comment ≠ [] then version ++ commentSep ++ comment else version
        | none => version
      else version
    else findUsesComment usesStr version rest

/-- `parseUsesString` from main.go on character lists: split the uses-string
at the first `'@'` (`strings.SplitN(usesStr, "@", 2)`); with no `'@'` return
the whole string and an empty version; otherwise augment the version with
any inline comment found on the matching line of the document. -/
def parseUsesStringL (usesStr workflowContent : List Char) : List Char × List Char :=
  match splitN2At '@' usesStr with
  | none => (usesStr, [])
  | some (action, version) =>
    (action, findUsesComment usesStr version (splitOnChar '\n' workflowContent))

/-- `parseUsesString` at `String` type. -/
def parseUsesString (usesStr workflowContent : String) : String × String :=
  let p := parseUsesStringL usesStr.data workflowContent.data
  (String.mk p.1, String.mk p.2)

/-! Claim-side descriptions of the comment rule. -/

/-- Does this document line textually contain both the `uses:` keyword and
the matched uses-string (after trimming)? -/
def usesLineMatches (usesStr line : List Char) : Bool :=
  containsSub (trimL line) usesKeyword && containsSub (trimL line) usesStr

/-- The trimmed form of the first document line containing both the `uses:`
keyword and the uses-string. -/
def firstUsesLine (usesStr : List Char) (lines : List (List Char)) : Option (List Char) :=
  (lines.find? (usesLineMatches usesStr)).map trimL

/-- The trimmed text after the first `'#'` that appears after the end of the
uses-string on the (trimmed) line `t`, if such a `'#'` exists. -/
def inlineCommentText (usesStr t : List Char) : Option (List Char) :=
  let e := (subIdx usesStr t).getD 0 + usesStr.length
  if e < t.length then
    match subIdx ['#'] (t.drop e) with
    | some i => some (trimL ((t.drop e).drop (i + 1)))
    | none => none
  else none

theorem findUsesComment_characterization (usesStr v : List Char)
    (lines : List (List Char)) :
    findUsesComment usesStr v lines =
      match firstUsesLine usesStr lines with
      | none => v
      | some t =>
        match inlineCommentText usesStr t with
        | some c => if c ≠ [] then v ++ commentSep ++ c else v
        | none => v := by
  induction lines with
  | nil => rfl
  | cons line rest ih =>
    simp only [findUsesComment]
    by_cases hm : (containsSub (trimL line) usesKeyword && containsSub (trimL line) usesStr) = true
    · rw [if_pos hm]
      have hmP : usesLineMatches usesStr line = true := by simpa [usesLineMatches] using hm
      simp only [firstUsesLine, List.find?_cons_of_pos _ hmP, Option.map_some']
      simp only [inlineCommentText]
      by_cases he : (subIdx usesStr (trimL line)).getD 0 + usesStr.length < (trimL line).length
      · simp only [if_pos he]
        cases hidx : subIdx ['#'] ((trimL line).drop ((subIdx usesStr (trimL line)).getD 0 + usesStr.length)) with
        | none => simp [hidx]
        | some i => simp [hidx]
      · simp [he]
    · rw [if_neg hm]
      have hmN : ¬ usesLineMatches usesStr line = true := by simpa [usesLineMatches] using hm
      simp only [firstUsesLine, List.find?_cons_of_neg _ hmN]
      simpa [firstUsesLine] using ih

/-- C4 exactly as stated: whenever the first matching line has a `'#'`
after the end of the uses-string, the trimmed text after the `'#'` is
appended as `"<version> # <comment>"`, and without such a `'#'` the version
is the text after the first `'@'` unchanged.  (Refuted below: a comment
that trims to empty is not appended.) -/
def c4ClaimStatement : Prop :=
  ∀ (usesStr wc : String) (a v t : List Char),
    splitN2At '@' usesStr.data = some (a, v) →
    firstUsesLine usesStr.data (splitOnChar '\n' wc.data) = some t →
    (∀ c, inlineCommentText usesStr.data t = some c →
        (parseUsesString usesStr wc).2.data = v ++ commentSep ++ c)
    ∧ (inlineCommentText usesStr.data t = none →
        (parseUsesString usesStr wc).2.data = v)

/-- C4 counterexample: for `uses: a@v #` the text after `'#'` trims to
empty, and the code leaves the version `"v"` instead of producing `"v # "`. -/
theorem parseUsesString_empty_comment_cex : ¬ c4ClaimStatement := by
  intro h
  have h2 := (h "a@v" "uses: a@v #" "a".data "v".data (trimL "uses: a@v #".data)
      (by decide) (by decide)).1 [] (by decide)
  revert h2
  decide

theorem string_mk_data (s : String) : String.mk s.data = s := rfl

theorem string_data_append (a b : String) : (a ++ b).data = a.data ++ b.data := by
  cases a
  cases b
  rfl

theorem splitN2At_not_mem {sep : Char} {s : List Char} (h : sep ∉ s) :
    splitN2At sep s = none := by
  induction s with
  | nil => rfl
  | cons c rest ih =>
    simp only [List.mem_cons, not_or] at h
    simp [splitN2At, show ¬(c = sep) from fun e => h.1 e.symm, ih h.2]

theorem splitN2At_append {sep : Char} (a b : List Char) (h : sep ∉ a) :
    splitN2At sep (a ++ sep :: b) = some (a, b) := by
  induction a with
  | nil => simp [splitN2At]
  | cons c rest ih =>
    simp only [List.mem_cons, not_or] at h
    simp [splitN2At, show ¬(c = sep) from fun e => h.1 e.symm, ih h.2]

theorem findUsesComment_extends (u v : List Char) (lines : List (List Char)) :
    ∃ tail, findUsesComment u v lines = v ++ tail := by
  induction lines with
  | nil => exact ⟨[], (List.append_nil v).symm⟩
  | cons line rest ih =>
    simp only [findUsesComment]
    by_cases hm : (containsSub (trimL line) usesKeyword && containsSub (trimL line) u) = true
    all_goals first
      | (rw [if_pos hm]
         split
         · split
           · split
             · exact ⟨commentSep ++ _, (List.append_assoc v _ _)⟩
             · exact ⟨[], (List.append_nil v).symm⟩
           · exact ⟨[], (List.append_nil v).symm⟩
         · exact ⟨[], (List.append_nil v).symm⟩)
      | (rw [if_neg hm]; exact ih)

/-- C4 amended: the inline comment is appended only when its trimmed text is
non-empty; with no `'#'` past the uses-string (or a comment trimming to
empty, or no matching line at all) the version is the text after the first
`'@'` unchanged. -/
theorem parseUsesString_comment_rule (usesStr wc : String) (a v : List Char)
    (hsplit : splitN2At '@' usesStr.data = some (a, v)) :
    (∀ t c, firstUsesLine usesStr.data (splitOnChar '\n' wc.data) = some t →
        inlineCommentText usesStr.data t = some c → c ≠ [] →
        (parseUsesString usesStr wc).2.data = v ++ commentSep ++ c)
    ∧ (∀ t, firstUsesLine usesStr.data (splitOnChar '\n' wc.data) = some t →
        (inlineCommentText usesStr.data t = none ∨ inlineCommentText usesStr.data t = some []) →
        (parseUsesString usesStr wc).2.data = v)
    ∧ (firstUsesLine usesStr.data (splitOnChar '\n' wc.data) = none →
        (parseUsesString usesStr wc).2.data = v) := by
  have hbase : (parseUsesString usesStr wc).2.data
      = findUsesComment usesStr.data v (splitOnChar '\n' wc.data) := by
    simp [parseUsesString, parseUsesStringL, hsplit]
  rw [findUsesComment_characterization] at hbase
  refine ⟨?_, ?_, ?_⟩
  · intro t c ht hc hne
    rw [ht] at hbase
    simp only [hc] at hbase
    simpa [hne] using hbase
  · intro t ht hdisj
    rw [ht] at hbase
    rcases hdisj with h | h
    · simp only [h] at hbase
      exact hbase
    · simp only [h] at hbase
      simpa using hbase
  · intro h
    rw [h] at hbase
    exact hbase

/-- Witness for the amended C4 at the spec's own example. -/
theorem parseUsesString_comment_rule_witness :
    (parseUsesString "actions/checkout@de0fac2e4500dabe0009e67214ff5f5447ce83dd"
        "      - uses: actions/checkout@de0fac2e4500dabe0009e67214ff5f5447ce83dd # v6.0.2").2.data
      = "de0fac2e4500dabe0009e67214ff5f5447ce83dd".data ++ commentSep ++ "v6.0.2".data :=
  (parseUsesString_comment_rule _ _ "actions/checkout".data
      "de0fac2e4500dabe0009e67214ff5f5447ce83dd".data (by decide)).1
    (trimL "      - uses: actions/checkout@de0fac2e4500dabe0009e67214ff5f5447ce83dd # v6.0.2".data)
    "v6.0.2".data (by decide) (by decide) (by decide)

/-- C5: the name/version split is on the first `'@'` only (the version
token may itself contain `'@'`), and with no `'@'` the returned version is
exactly the empty string. -/
theorem parseUsesString_split_rule (wc : String) :
    (∀ s : String, '@' ∉ s.data → parseUsesString s wc = (s, ""))
    ∧ (∀ a b : String, '@' ∉ a.data →
        splitN2At '@' (a ++ "@" ++ b).data = some (a.data, b.data)
        ∧ (parseUsesString (a ++ "@" ++ b) wc).1 = a
        ∧ ∃ tail, (parseUsesString (a ++ "@" ++ b) wc).2.data = b.data ++ tail) := by
  constructor
  · intro s hs
    simp [parseUsesString, parseUsesStringL, splitN2At_not_mem hs, string_mk_data]
  · intro a b ha
    have hdata : (a ++ "@" ++ b).data = a.data ++ '@' :: b.data := by
      rw [string_data_append, string_data_append]
      simp
    have hsplit0 : splitN2At '@' (a.data ++ '@' :: b.data) = some (a.data, b.data) :=
      splitN2At_append a.data b.data ha
    have hsplit : splitN2At '@' (a ++ "@" ++ b).data = some (a.data, b.data) := by
      rw [hdata]
      exact hsplit0
    refine ⟨hsplit, ?_, ?_⟩
    · simp [parseUsesString, parseUsesStringL, hdata, hsplit0, string_mk_data]
    · obtain ⟨tail, htail⟩ := findUsesComment_extends (a ++ "@" ++ b).data b.data
        (splitOnChar '\n' wc.data)
      rw [hdata] at htail
      exact ⟨tail, by simp [parseUsesString, parseUsesStringL, hdata, hsplit0, htail]⟩

/-- Witness for C5 at the spec's examples (`my-org/my-action` with no `'@'`;
`actions/setup-go@v5`). -/
theorem parseUsesString_split_rule_witness :
    parseUsesString "my-org/my-action" "uses: my-org/my-action" = ("my-org/my-action", "")
    ∧ (parseUsesString ("actions/setup-go" ++ "@" ++ "v5") "jobs:").1 = "actions/setup-go" :=
  ⟨(parseUsesString_split_rule "uses: my-org/my-action").1 "my-org/my-action" (by decide),
   ((parseUsesString_split_rule "jobs:").2 "actions/setup-go" "v5" (by decide)).2.1⟩

/-! ## Reference extractor: `extractActionUses` (main.go)

The function unmarshals the workflow text into a dynamic
`map[string]interface{}` and walks it with type assertions.  The dynamic
value is embedded as a tagged tree `YVal`; the YAML text-to-tree step is the
external `yaml.v3` collaborator, so `extractActionUses` takes the parse
result (`none` models `yaml.Unmarshal` returning an error, which includes
documents whose top level is not a mapping). -/

/-- A dynamic YAML value as Go's `interface{}` unmarshaling produces it:
a string, a mapping, a sequence, or any other scalar (`other` stands for
numbers, booleans and null, on which the program's type assertions fail). -/
inductive YVal where
  | str (s : String)
  | mapping (entries : List (String × YVal))
  | seq (items : List YVal)
  | other

/-- Go map lookup `m[k]` on the association-list model of a mapping
(`nil` interface for a missing key becomes `none`). -/
def yLookup (k : String) (entries : List (String × YVal)) : Option YVal :=
  (entries.find? (fun e => e.1 == k)).map Prod.snd

/-- `ActionUse` from main.go. -/
structure ActionUse where
  action : String
  version : String
  repoName : String
  filePath : String

/-- The per-step body of `extractActionUses`: a step must be a mapping with
a string `uses` field; the parsed action must be non-empty. -/
def stepUses (workflowContent repoName filePath : String) (stepData : YVal) : List ActionUse :=
  match stepData with
  | .mapping step =>
    match yLookup "uses" step with
    | some (.str usesStr) =>
      let p := parseUsesString usesStr workflowContent
      if p.1 ≠ "" then [⟨p.1, p.2, repoName, filePath⟩] else []
    | _ => []
  | _ => []

/-- The per-job body of `extractActionUses`: a job must be a mapping whose
`steps` field is a sequence; each step contributes its uses. -/
def jobUses (workflowContent repoName filePath : String) (jobData : YVal) : List ActionUse :=
  match jobData with
  | .mapping job =>
    match yLookup "steps" job with
    | some (.seq steps) => steps.flatMap (stepUses workflowContent repoName filePath)
    | _ => []
  | _ => []

/-- `extractActionUses` from main.go: on parse failure return the empty
list; otherwise require a `jobs` mapping and walk jobs and steps, skipping
every value of an unexpected shape. -/
def extractActionUses (parsed : Option (List (String × YVal)))
    (workflowContent repoName filePath : String) : List ActionUse :=
  match parsed with
  | none => []
  | some workflow =>
    match yLookup "jobs" workflow with
    | some (.mapping jobs) =>
      jobs.flatMap (fun kv => jobUses workflowContent repoName filePath kv.2)
    | _ => []

/-- C6: reference extraction is total and degrades instead of aborting — a
failed parse yields `[]`, a document without a `jobs` mapping yields `[]`,
a job without a `steps` sequence contributes nothing, a step whose `uses`
is not a string contributes nothing, and a well-shaped document reduces to
the per-job walk. -/
theorem extractActionUses_never_errors (wc rn fp : String) :
    (extractActionUses none wc rn fp = [])
    ∧ (∀ workflow, (∀ entries, yLookup "jobs" workflow ≠ some (.mapping entries)) →
        extractActionUses (some workflow) wc rn fp = [])
    ∧ (∀ job, (∀ steps, yLookup "steps" job ≠ some (.seq steps)) →
        jobUses wc rn fp (.mapping job) = [])
    ∧ (∀ jobData, (∀ job, jobData ≠ YVal.mapping job) → jobUses wc rn fp jobData = [])
    ∧ (∀ step, (∀ s, yLookup "uses" step ≠ some (.str s)) →
        stepUses wc rn fp (.mapping step) = [])
    ∧ (∀ workflow jobs, yLookup "jobs" workflow = some (.mapping jobs) →
        extractActionUses (some workflow) wc rn fp
          = jobs.flatMap (fun kv => jobUses wc rn fp kv.2)) := by
  refine ⟨rfl, ?_, ?_, ?_, ?_, ?_⟩
  · intro workflow h
    cases hv : yLookup "jobs" workflow with
    | none => simp [extractActionUses, hv]
    | some val =>
      cases val with
      | str s => simp [extractActionUses, hv]
      | mapping entries => exact absurd hv (h entries)
      | seq xs => simp [extractActionUses, hv]
      | other => simp [extractActionUses, hv]
  · intro job h
    cases hv : yLookup "steps" job with
    | none => simp [jobUses, hv]
    | some val =>
      cases val with
      | str s => simp [jobUses, hv]
      | mapping entries => simp [jobUses, hv]
      | seq xs => exact absurd hv (h xs)
      | other => simp [jobUses, hv]
  · intro jobData h
    cases jobData with
    | str s => rfl
    | mapping job => exact absurd rfl (h job)
    | seq xs => rfl
    | other => rfl
  · intro step h
    cases hv : yLookup "uses" step with
    | none => simp [stepUses, hv]
    | some val =>
      cases val with
      | str s => exact absurd hv (h s)
      | mapping entries => simp [stepUses, hv]
      | seq xs => simp [stepUses, hv]
      | other => simp [stepUses, hv]
  · intro workflow jobs hv
    simp [extractActionUses, hv]

/-- Witness for C6 on concrete malformed documents: a parse failure, a
document whose `jobs` is a string, a job whose `steps` is missing, and a
step whose `uses` is a sequence all yield the empty list. -/
theorem extractActionUses_never_errors_witness :
    extractActionUses none "x" "r" "f" = []
    ∧ extractActionUses (some [("jobs", YVal.str "oops")]) "x" "r" "f" = []
    ∧ jobUses "x" "r" "f" (.mapping [("name", YVal.str "n")]) = []
    ∧ stepUses "x" "r" "f" (.mapping [("uses", YVal.seq [])]) = [] := by
  have h := extractActionUses_never_errors "x" "r" "f"
  refine ⟨h.1, ?_, ?_, ?_⟩
  · exact h.2.1 [("jobs", YVal.str "oops")]
      (fun entries hEq => by simp [yLookup] at hEq)
  · exact h.2.2.1 [("name", YVal.str "n")]
      (fun steps hEq => by simp [yLookup] at hEq)
  · exact h.2.2.2.2.1 [("uses", YVal.seq [])]
      (fun s hEq => by simp [yLookup] at hEq)

/-! ## SHA-256 (`computeHash`, main.go)

`computeHash` is `hex.EncodeToString(sha256.Sum256(content))`.  The hash is
embedded in full over `Nat` with explicit reduction modulo `2^32`; a byte
sequence is a `List Nat` of values below 256. -/

/-- `2^32`. -/
def w32mod : Nat := 4294967296

/-- Reduce modulo `2^32`. -/
def w32 (n : Nat) : Nat := n % w32mod

/-- Right rotation of a 32-bit word. -/
def rotr32 (n x : Nat) : Nat := w32 ((x >>> n) ||| (x <<< (32 - n)))

/-- SHA-256 σ₀. -/
def smallSigma0 (x : Nat) : Nat := (rotr32 7 x) ^^^ (rotr32 18 x) ^^^ (x >>> 3)

/-- SHA-256 σ₁. -/
def smallSigma1 (x : Nat) : Nat := (rotr32 17 x) ^^^ (rotr32 19 x) ^^^ (x >>> 10)

/-- SHA-256 Σ₀. -/
def bigSigma0 (x : Nat) : Nat := (rotr32 2 x) ^^^ (rotr32 13 x) ^^^ (rotr32 22 x)

/-- SHA-256 Σ₁. -/
def bigSigma1 (x : Nat) : Nat := (rotr32 6 x) ^^^ (rotr32 11 x) ^^^ (rotr32 25 x)

/-- The 64 SHA-256 round constants. -/
def sha256K : List Nat :=
  [0x428A2F98, 0x71374491, 0xB5C0FBCF, 0xE9B5DBA5,
   0x3956C25B, 0x59F111F1, 0x923F82A4, 0xAB1C5ED5,
   0xD807AA98, 0x12835B01, 0x243185BE, 0x550C7DC3,
   0x72BE5D74, 0x80DEB1FE, 0x9BDC06A7, 0xC19BF174,
   0xE49B69C1, 0xEFBE4786, 0x0FC19DC6, 0x240CA1CC,
   0x2DE92C6F, 0x4A7484AA, 0x5CB0A9DC, 0x76F988DA,
   0x983E5152, 0xA831C66D, 0xB00327C8, 0xBF597FC7,
   0xC6E00BF3, 0xD5A79147, 0x06CA6351, 0x14292967,
   0x27B70A85, 0x2E1B2138, 0x4D2C6DFC, 0x53380D13,
   0x650A7354, 0x766A0ABB, 0x81C2C92E, 0x92722C85,
   0xA2BFE8A1, 0xA81A664B, 0xC24B8B70, 0xC76C51A3,
   0xD192E819, 0xD6990624, 0xF40E3585, 0x106AA070,
   0x19A4C116, 0x1E376C08, 0x2748774C, 0x34B0BCB5,
   0x391C0CB3, 0x4ED8AA4A, 0x5B9CCA4F, 0x682E6FF3,
   0x748F82EE, 0x78A5636F, 0x84C87814, 0x8CC70208,
   0x90BEFFFA, 0xA4506CEB, 0xBEF9A3F7, 0xC67178F2]

/-- The SHA-256 initial hash value. -/
def sha256H0 : List Nat :=
  [0x6A09E667,
   0xBB67AE85,
   0x3C6EF372,
   0xA54FF53A,
   0x510E527F,
   0x9B05688C,
   0x1F83D9AB,
   0x5BE0CD19]

/-- Big-endian bytes of `n`, `width` bytes wide. -/
def beBytes : Nat → Nat → List Nat
  | 0, _ => []
  | width + 1, n => beBytes width (n / 256) ++ [n % 256]

/-- SHA-256 padding: append `0x80`, zero-pad to 56 mod 64 bytes, append the
bit length as eight big-endian bytes. -/
def sha256Pad (msg : List Nat) : List Nat :=
  msg ++ [0x80] ++ List.replicate ((119 - (msg.length % 64)) % 64) 0
      ++ beBytes 8 (8 * msg.length)

/-- Group bytes into big-endian 32-bit words. -/
def bytesToWords : List Nat → List Nat
  | b0 :: b1 :: b2 :: b3 :: rest =>
    (((b0 * 256 + b1) * 256 + b2) * 256 + b3) :: bytesToWords rest
  | _ => []

/-- Group words into 16-word blocks. -/
def chunksOf16 : List Nat → List (List Nat)
  | w0 :: w1 :: w2 :: w3 :: w4 :: w5 :: w6 :: w7 :: w8 :: w9 :: w10 :: w11 :: w12 :: w13 :: w14 :: w15 :: rest =>
    [w0, w1, w2, w3, w4, w5, w6, w7, w8, w9, w10, w11, w12, w13, w14, w15] :: chunksOf16 rest
  | _ => []

/-- One message-schedule extension step: append
`σ₁(W[t-2]) + W[t-7] + σ₀(W[t-15]) + W[t-16]` (mod `2^32`). -/
def scheduleStep (w : List Nat) : List Nat :=
  w ++ [w32 (smallSigma1 (w.getD (w.length - 2) 0) + w.getD (w.length - 7) 0
      + smallSigma0 (w.getD (w.length - 15) 0) + w.getD (w.length - 16) 0)]

/-- One compression round on the state `[a,b,c,d,e,f,g,h]` with a round
constant and schedule word. -/
def compressRound (st : List Nat) (kw : Nat × Nat) : List Nat :=
  match st with
  | [a, b, c, d, e, f, g, h] =>
    let ch := (e &&& f) ^^^ ((4294967295 ^^^ e) &&& g)
    let maj := (a &&& b) ^^^ (a &&& c) ^^^ (b &&& c)
    let t1 := w32 (h + bigSigma1 e + ch + kw.1 + kw.2)
    let t2 := w32 (bigSigma0 a + maj)
    [w32 (t1 + t2), a, b, c, w32 (d + t1), e, f, g]
  | _ => st

/-- Compress one 16-word chunk into the running hash. -/
def compressChunk (h : List Nat) (chunkWords : List Nat) : List Nat :=
  let w := Nat.repeat scheduleStep 48 chunkWords
  let st := (sha256K.zip w).foldl compressRound h
  (h.zip st).map (fun p => w32 (p.1 + p.2))

/-- SHA-256 digest of a byte sequence, as 32 bytes. -/
def sha256 (msg : List Nat) : List Nat :=
  ((chunksOf16 (bytesToWords (sha256Pad msg))).foldl compressChunk sha256H0).flatMap (beBytes 4)

/-- Lowercase hex digit. -/
def hexDigit (n : Nat) : Char :=
  if n < 10 then Char.ofNat (48 + n) else Char.ofNat (87 + n)

/-- Lowercase hex encoding of bytes, mirroring Go `hex.EncodeToString`. -/
def hexEncode (bytes : List Nat) : String :=
  String.mk (bytes.flatMap (fun b => [hexDigit (b / 16), hexDigit (b % 16)]))

/-- `computeHash` from main.go: lowercase-hex SHA-256 of the raw bytes. -/
def computeHash (content : List Nat) : String :=
  hexEncode (sha256 content)

/-! ## Content blob store (`storeActionVersion` / `storeDependabotVersion`)

A collection-key directory is an association list from file name to stored
bytes.  `os.Stat` + conditional `os.WriteFile` becomes: write only when no
file of that name exists.  The returned flag records whether a write
happened. -/

/-- `storeActionVersion` from main.go (and, identically,
`storeDependabotVersion`): store `content` under the file named `hash`
unless such a file already exists; report whether a write was performed. -/
def storeActionVersion (dir : List (String × List Nat)) (hash : String)
    (content : List Nat) : List (String × List Nat) × Bool :=
  if dir.any (fun f => f.1 == hash) then (dir, false)
  else (dir ++ [(hash, content)], true)

/-- C2: storing equal byte sequences is content-addressed and idempotent —
the digests agree, after both stores exactly one physical blob file with
that digest exists, and the second store performs no write. -/
theorem storeActionVersion_idempotent (c1 c2 : List Nat)
    (dir : List (String × List Nat)) (heq : c1 = c2)
    (hfresh : dir.any (fun f => f.1 == computeHash c1) = false) :
    computeHash c1 = computeHash c2
    ∧ ((storeActionVersion ((storeActionVersion dir (computeHash c1) c1).1)
          (computeHash c2) c2).1
        = (storeActionVersion dir (computeHash c1) c1).1)
    ∧ ((storeActionVersion ((storeActionVersion dir (computeHash c1) c1).1)
          (computeHash c2) c2).2 = false)
    ∧ (((storeActionVersion ((storeActionVersion dir (computeHash c1) c1).1)
          (computeHash c2) c2).1.filter (fun f => f.1 == computeHash c1)).length = 1) := by
  subst heq
  have hfirst : (storeActionVersion dir (computeHash c1) c1).1
      = dir ++ [(computeHash c1, c1)] := by
    simp [storeActionVersion, hfresh]
  have hmem : ((dir ++ [(computeHash c1, c1)]).any
      (fun f => f.1 == computeHash c1)) = true := by
    simp [List.any_append]
  refine ⟨rfl, ?_, ?_, ?_⟩
  · rw [hfirst]
    simp [storeActionVersion, hmem]
  · rw [hfirst]
    simp [storeActionVersion, hmem]
  · rw [hfirst]
    simp only [storeActionVersion, hmem, if_pos]
    rw [List.filter_append]
    have hnil : dir.filter (fun f => f.1 == computeHash c1) = [] := by
      rw [List.filter_eq_nil_iff]
      intro a ha
      have := (List.any_eq_false).mp hfresh a ha
      simpa using this
    simp [hnil]

/-- Witness for C2: storing the bytes of `"abc"` twice into an empty
directory writes once, skips the second write, and leaves one blob. -/
theorem storeActionVersion_idempotent_witness :
    computeHash [97, 98, 99] = computeHash [97, 98, 99]
    ∧ ((storeActionVersion ((storeActionVersion [] (computeHash [97, 98, 99]) [97, 98, 99]).1)
          (computeHash [97, 98, 99]) [97, 98, 99]).1
        = (storeActionVersion [] (computeHash [97, 98, 99]) [97, 98, 99]).1)
    ∧ ((storeActionVersion ((storeActionVersion [] (computeHash [97, 98, 99]) [97, 98, 99]).1)
          (computeHash [97, 98, 99]) [97, 98, 99]).2 = false)
    ∧ (((storeActionVersion ((storeActionVersion [] (computeHash [97, 98, 99]) [97, 98, 99]).1)
          (computeHash [97, 98, 99]) [97, 98, 99]).1.filter
            (fun f => f.1 == computeHash [97, 98, 99])).length = 1) :=
  storeActionVersion_idempotent [97, 98, 99] [97, 98, 99] [] rfl rfl

/-! ## Garbage collection (`garbageCollect` / `garbageCollectDependabot`)

A collection-key directory is a list of regular-file names (directory
entries that are themselves directories are skipped by the Go walk and left
out of the model).  An index is the association list of its `repositories`
mapping.  The walk returns the surviving file names. -/

/-- The `hashesInUse` set of one garbage-collection pass: every digest
referenced by any owner entry of the index. -/
def hashesInUse (index : List (String × String)) : List String :=
  index.map Prod.snd

/-- Go `strings.TrimSuffix(name, filepath.Ext(name))`: drop the final
extension (everything from the last `'.'` on) if a `'.'` occurs. -/
def trimExtL (name : List Char) : List Char :=
  match subIdx ['.'] name.reverse with
  | none => name
  | some i => name.take (name.length - 1 - i)

/-- String form of `trimExtL`. -/
def trimExtS (name : String) : String :=
  String.mk (trimExtL name.data)

/-- The per-directory loop of `garbageCollect` (workflows): keep
`index.yaml`; keep a file whose name with its extension stripped is a
referenced digest; remove everything else. -/
def garbageCollectFiles (index : List (String × String)) : List String → List String
  | [] => []
  | f :: rest =>
    if f == "index.yaml" then f :: garbageCollectFiles index rest
    else if (hashesInUse index).contains (trimExtS f) then f :: garbageCollectFiles index rest
    else garbageCollectFiles index rest

/-- The per-directory loop of `garbageCollectDependabot`: identical but the
file name is compared to the digests unstripped. -/
def garbageCollectDependabotFiles (index : List (String × String)) : List String → List String
  | [] => []
  | f :: rest =>
    if f == "index.yaml" then f :: garbageCollectDependabotFiles index rest
    else if (hashesInUse index).contains f then f :: garbageCollectDependabotFiles index rest
    else garbageCollectDependabotFiles index rest

theorem garbageCollectFiles_eq_filter (index : List (String × String)) (files : List String) :
    garbageCollectFiles index files
      = files.filter (fun f => f == "index.yaml" || (hashesInUse index).contains (trimExtS f)) := by
  induction files with
  | nil => rfl
  | cons f rest ih =>
    by_cases h1 : (f == "index.yaml") = true
    · simp [garbageCollectFiles, h1, List.filter_cons, ih]
    · by_cases h2 : (hashesInUse index).contains (trimExtS f) = true
      · simp [garbageCollectFiles, h1, h2, List.filter_cons, ih]
      · simp [garbageCollectFiles, h1, h2, List.filter_cons, ih]

theorem garbageCollectDependabotFiles_eq_filter (index : List (String × String))
    (files : List String) :
    garbageCollectDependabotFiles index files
      = files.filter (fun f => f == "index.yaml" || (hashesInUse index).contains f) := by
  induction files with
  | nil => rfl
  | cons f rest ih =>
    by_cases h1 : (f == "index.yaml") = true
    · simp [garbageCollectDependabotFiles, h1, List.filter_cons, ih]
    · by_cases h2 : (hashesInUse index).contains f = true
      · simp [garbageCollectDependabotFiles, h1, h2, List.filter_cons, ih]
      · simp [garbageCollectDependabotFiles, h1, h2, List.filter_cons, ih]

/-- C1: for a readable, parseable index, garbage collection deletes nothing
when every stored blob's digest is referenced, deletes exactly the blobs
whose digests are unreferenced, and never deletes the index file — for both
the workflow and the dependabot collection walks. -/
theorem garbageCollect_exact (index : List (String × String)) (files : List String) :
    ((∀ f ∈ files, f ≠ "index.yaml" → (hashesInUse index).contains (trimExtS f) = true) →
        garbageCollectFiles index files = files)
    ∧ (∀ f ∈ files,
        (f ∉ garbageCollectFiles index files
          ↔ f ≠ "index.yaml" ∧ (hashesInUse index).contains (trimExtS f) = false))
    ∧ ("index.yaml" ∈ files → "index.yaml" ∈ garbageCollectFiles index files)
    ∧ ((∀ f ∈ files, f ≠ "index.yaml" → (hashesInUse index).contains f = true) →
        garbageCollectDependabotFiles index files = files)
    ∧ (∀ f ∈ files,
        (f ∉ garbageCollectDependabotFiles index files
          ↔ f ≠ "index.yaml" ∧ (hashesInUse index).contains f = false))
    ∧ ("index.yaml" ∈ files → "index.yaml" ∈ garbageCollectDependabotFiles index files) := by
  refine ⟨?_, ?_, ?_, ?_, ?_, ?_⟩
  · intro h
    rw [garbageCollectFiles_eq_filter]
    apply List.filter_eq_self.mpr
    intro f hf
    by_cases hidx : f = "index.yaml"
    · simp [hidx]
    · have hmemv := h f hf hidx
      simp [hidx]
      simpa using hmemv
  · intro f hf
    rw [garbageCollectFiles_eq_filter]
    constructor
    · intro hnot
      by_cases hidx : f = "index.yaml"
      · exact absurd (List.mem_filter.mpr ⟨hf, by simp [hidx]⟩) hnot
      · refine ⟨hidx, ?_⟩
        by_cases hc : (hashesInUse index).contains (trimExtS f) = true
        · exact absurd (List.mem_filter.mpr ⟨hf, by simp [Or.inr (by simpa using hc : trimExtS f ∈ hashesInUse index)]⟩) hnot
        · simpa using hc
    · rintro ⟨hidx, hc⟩ hmem
      have hin := (List.mem_filter.mp hmem).2
      simp [hidx] at hin
      exact absurd hin (by simpa using hc)
  · intro h
    rw [garbageCollectFiles_eq_filter]
    exact List.mem_filter.mpr ⟨h, by simp⟩
  · intro h
    rw [garbageCollectDependabotFiles_eq_filter]
    apply List.filter_eq_self.mpr
    intro f hf
    by_cases hidx : f = "index.yaml"
    · simp [hidx]
    · have hmemv := h f hf hidx
      simp [hidx]
      simpa using hmemv
  · intro f hf
    rw [garbageCollectDependabotFiles_eq_filter]
    constructor
    · intro hnot
      by_cases hidx : f = "index.yaml"
      · exact absurd (List.mem_filter.mpr ⟨hf, by simp [hidx]⟩) hnot
      · refine ⟨hidx, ?_⟩
        by_cases hc : (hashesInUse index).contains f = true
        · exact absurd (List.mem_filter.mpr ⟨hf, by simp [Or.inr (by simpa using hc : f ∈ hashesInUse index)]⟩) hnot
        · simpa using hc
    · rintro ⟨hidx, hc⟩ hmem
      have hin := (List.mem_filter.mp hmem).2
      simp [hidx] at hin
      exact absurd hin (by simpa using hc)
  · intro h
    rw [garbageCollectDependabotFiles_eq_filter]
    exact List.mem_filter.mpr ⟨h, by simp⟩

/-- Witness for C1: a directory holding the index file, one referenced blob
and one unreferenced blob keeps exactly the first two. -/
theorem garbageCollect_exact_witness :
    garbageCollectFiles [("repoA", "aa")] ["index.yaml", "aa"] = ["index.yaml", "aa"]
    ∧ ("bb" ∉ garbageCollectFiles [("repoA", "aa")] ["index.yaml", "aa", "bb"]
        ↔ "bb" ≠ "index.yaml" ∧ (hashesInUse [("repoA", "aa")]).contains (trimExtS "bb") = false) := by
  constructor
  · exact (garbageCollect_exact [("repoA", "aa")] ["index.yaml", "aa"]).1
      (by intro f hf hne; fin_cases hf
          · simp_all
          · decide)
  · exact (garbageCollect_exact [("repoA", "aa")] ["index.yaml", "aa", "bb"]).2.1 "bb" (by decide)

/-! ## Collection index: upsert, serialization and loading
(`updateActionIndex` / `updateDependabotIndex`, main.go)

The in-memory `ActionIndex.Repositories` map is an association list.  The
persisted `index.yaml` is a `String`; the `yaml.v3` marshal/unmarshal of the
one-field `ActionIndex` struct is external library code, modelled from the
spec's serialization-format section: one `repositories:` block line, one
`<owner>: <digest>` line per entry with stable (sorted-ascending) key
order, `repositories: \x7b\x7d` for an empty map, and a nil (absent) mapping
for an empty or valueless document. -/

/-- Go map assignment `index.Repositories[repoName] = hash`: replace the
entry for an existing key, otherwise add one. -/
def upsertIndex (m : List (String × String)) (k v : String) : List (String × String) :=
  if m.any (fun p => p.1 == k) then m.map (fun p => if p.1 == k then (k, v) else p)
  else m ++ [(k, v)]

/-- Order on index entries: ascending owner name. -/
def indexKeyLE (p q : String × String) : Prop := p.1 ≤ q.1

instance indexKeyLEDecidable : DecidableRel indexKeyLE := fun p q =>
  inferInstanceAs (Decidable (p.1 ≤ q.1))

instance indexKeyLETotal : IsTotal (String × String) indexKeyLE :=
  ⟨fun a b => le_total a.1 b.1⟩

instance indexKeyLETrans : IsTrans (String × String) indexKeyLE :=
  ⟨fun _ _ _ hab hbc => le_trans hab hbc⟩

/-- The `sort.Strings(sortedKeys)` step: entries in ascending owner order. -/
def sortIndexPairs (m : List (String × String)) : List (String × String) :=
  List.insertionSort indexKeyLE m

/-- One serialized index entry line (without its newline):
four-space indent, owner, `": "`, digest. -/
def renderIndexLine (p : String × String) : List Char :=
  "    ".data ++ p.1.data ++ ": ".data ++ p.2.data

/-- Modelled from the spec: the `yaml.Marshal` of an `ActionIndex` — a
`repositories:` block in stable ascending owner order, `\x7b\x7d` for an
empty map, one entry per line, trailing newline on every line. -/
def marshalActionIndex (m : List (String × String)) : String :=
  if m.isEmpty then "repositories: \x7b\x7d\n"
  else String.mk ("repositories:\n".data
      ++ (sortIndexPairs m).flatMap (fun p => renderIndexLine p ++ ['\n']))

/-- Parse one serialized entry line back into an (owner, digest) pair. -/
def parseIndexLine (cs : List Char) : Option (String × String) :=
  match cs with
  | ' ' :: ' ' :: ' ' :: ' ' :: rest =>
    match splitN2At ':' rest with
    | some (key, ' ' :: v) => some (String.mk key, String.mk v)
    | _ => none
  | _ => none

/-- Parse the entry lines of a serialized index in order. -/
def parseIndexLines : List (List Char) → Option (List (String × String))
  | [] => some []
  | l :: ls =>
    match parseIndexLine l, parseIndexLines ls with
    | some p, some ps => some (p :: ps)
    | _, _ => none

/-- Modelled from the spec: `yaml.Unmarshal` of an index file into an
`ActionIndex`, on the file's lines.  `none` is an unmarshal error;
`some none` is a successful unmarshal that leaves `Repositories` nil (an
empty document, or a `repositories:` key with a null value); `some (some m)`
is a present mapping. -/
def unmarshalLines (lines : List (List Char)) : Option (Option (List (String × String))) :=
  match lines with
  | [] => none
  | first :: rest =>
    if first = [] ∧ rest = [] then some none
    else if first = "repositories: \x7b\x7d".data ∧ rest = [[]] then some (some [])
    else if first = "repositories:".data then
      if rest = [[]] then some none
      else
        match rest.getLast? with
        | some [] =>
          match parseIndexLines rest.dropLast with
          | some ps => some (some ps)
          | none => none
        | _ => none
    else none

/-- Unmarshal a persisted index file. -/
def unmarshalActionIndex (file : String) : Option (Option (List (String × String))) :=
  unmarshalLines (splitOnChar '\n' file.data)

/-- Outcome of one index update: the newly written file, a reported
unmarshal error, or a Go runtime panic (assignment to an entry in a nil
map). -/
inductive UpdateOutcome where
  | ok (file : String)
  | yamlError
  | nilMapPanic

/-- `updateActionIndex` from main.go: with no existing index file start
from a fresh empty map; otherwise unmarshal the existing file (an error is
returned), then assign `index.Repositories[repoName] = hash` — a panic when
the unmarshaled `Repositories` map is nil — then sort the keys and write
the marshaled index back. -/
def updateActionIndex (existing : Option String) (repoName hash : String) : UpdateOutcome :=
  match existing with
  | none => .ok (marshalActionIndex (upsertIndex [] repoName hash))
  | some file =>
    match unmarshalActionIndex file with
    | none => .yamlError
    | some none => .nilMapPanic
    | some (some ps) => .ok (marshalActionIndex (upsertIndex ps repoName hash))

/-- `updateDependabotIndex` from main.go: identical update logic, keyed by
a dependabot category directory instead of a workflow name. -/
def updateDependabotIndex (existing : Option String) (repoName hash : String) : UpdateOutcome :=
  match existing with
  | none => .ok (marshalActionIndex (upsertIndex [] repoName hash))
  | some file =>
    match unmarshalActionIndex file with
    | none => .yamlError
    | some none => .nilMapPanic
    | some (some ps) => .ok (marshalActionIndex (upsertIndex ps repoName hash))

/-- Well-formed index entry: the owner name holds no newline or colon, the
digest no newline (true of repository names and hex digests). -/
def wfIndexEntry (p : String × String) : Prop :=
  ':' ∉ p.1.data ∧ '\n' ∉ p.1.data ∧ '\n' ∉ p.2.data

instance wfIndexEntryDecidable (p : String × String) : Decidable (wfIndexEntry p) :=
  inferInstanceAs (Decidable (_ ∧ _ ∧ _))

theorem splitOnChar_append_cons (sep : Char) (xs ys : List Char) (h : sep ∉ xs) :
    splitOnChar sep (xs ++ sep :: ys) = xs :: splitOnChar sep ys := by
  induction xs with
  | nil => simp [splitOnChar]
  | cons c cs ih =>
    simp only [List.mem_cons, not_or] at h
    simp [splitOnChar, show ¬(c = sep) from fun e => h.1 e.symm, ih h.2]

theorem newline_not_mem_render (p : String × String) (hp : wfIndexEntry p) :
    '\n' ∉ renderIndexLine p := by
  simp only [renderIndexLine, List.append_assoc, List.mem_append, not_or]
  exact ⟨by decide, hp.2.1, by decide, hp.2.2⟩

theorem splitOnChar_render_flat (ps : List (String × String))
    (h : ∀ p ∈ ps, wfIndexEntry p) :
    splitOnChar '\n' (ps.flatMap (fun p => renderIndexLine p ++ ['\n']))
      = ps.map renderIndexLine ++ [[]] := by
  induction ps with
  | nil => rfl
  | cons p ps' ih =>
    have hline := newline_not_mem_render p (h p (List.mem_cons_self p ps'))
    have hrest := ih (fun q hq => h q (List.mem_cons_of_mem p hq))
    calc splitOnChar '\n' ((p :: ps').flatMap (fun q => renderIndexLine q ++ ['\n']))
        = splitOnChar '\n' (renderIndexLine p
            ++ '\n' :: ps'.flatMap (fun q => renderIndexLine q ++ ['\n'])) := by
          simp [List.flatMap_cons, List.append_assoc]
      _ = renderIndexLine p :: splitOnChar '\n' (ps'.flatMap (fun q => renderIndexLine q ++ ['\n'])) :=
          splitOnChar_append_cons '\n' _ _ hline
      _ = (p :: ps').map renderIndexLine ++ [[]] := by rw [hrest]; rfl

theorem parseIndexLine_render (p : String × String) (hp : wfIndexEntry p) :
    parseIndexLine (renderIndexLine p) = some p := by
  have hshape : renderIndexLine p
      = ' ' :: ' ' :: ' ' :: ' ' :: (p.1.data ++ ':' :: ' ' :: p.2.data) := by
    simp [renderIndexLine, List.append_assoc]
  rw [hshape]
  simp [parseIndexLine, splitN2At_append p.1.data (' ' :: p.2.data) hp.1, string_mk_data]

theorem parseIndexLines_render (ps : List (String × String))
    (h : ∀ p ∈ ps, wfIndexEntry p) :
    parseIndexLines (ps.map renderIndexLine) = some ps := by
  induction ps with
  | nil => rfl
  | cons p ps' ih =>
    have hp := parseIndexLine_render p (h p (List.mem_cons_self p ps'))
    have hrest := ih (fun q hq => h q (List.mem_cons_of_mem p hq))
    simp [parseIndexLines, hp, hrest]

theorem sortIndexPairs_wf (m : List (String × String)) (h : ∀ p ∈ m, wfIndexEntry p) :
    ∀ p ∈ sortIndexPairs m, wfIndexEntry p := fun p hp =>
  h p ((List.mem_insertionSort indexKeyLE).mp hp)

theorem unmarshal_marshal (m : List (String × String))
    (hwf : ∀ p ∈ m, wfIndexEntry p) :
    unmarshalActionIndex (marshalActionIndex m) = some (some (sortIndexPairs m)) := by
  by_cases hm : m.isEmpty = true
  · have hnil : m = [] := List.isEmpty_iff.mp hm
    subst hnil
    decide
  · have hne : m ≠ [] := by simpa [List.isEmpty_iff] using hm
    have hsne : sortIndexPairs m ≠ [] := by
      intro h0
      have hperm := List.perm_insertionSort indexKeyLE m
      rw [sortIndexPairs] at h0
      rw [h0] at hperm
      exact hne hperm.symm.eq_nil
    have hmapne : (sortIndexPairs m).map renderIndexLine ≠ [] := by
      intro h0
      exact hsne (List.map_eq_nil_iff.mp h0)
    have hwfs := sortIndexPairs_wf m hwf
    rw [unmarshalActionIndex, marshalActionIndex, if_neg hm]
    show unmarshalLines (splitOnChar '\n' ("repositories:\n".data
        ++ (sortIndexPairs m).flatMap (fun p => renderIndexLine p ++ ['\n']))) = _
    have hhd : "repositories:\n".data
        ++ (sortIndexPairs m).flatMap (fun p => renderIndexLine p ++ ['\n'])
        = "repositories:".data
          ++ '\n' :: (sortIndexPairs m).flatMap (fun p => renderIndexLine p ++ ['\n']) := by
      have h14 : "repositories:\n".data = "repositories:".data ++ ['\n'] := by decide
      rw [h14, List.append_assoc]
      rfl
    rw [hhd, splitOnChar_append_cons '\n' _ _ (by decide),
      splitOnChar_render_flat _ hwfs]
    have c1 : ¬("repositories:".data = ([] : List Char)
        ∧ (sortIndexPairs m).map renderIndexLine ++ [[]] = []) := by
      intro hcontra
      exact absurd hcontra.1 (by decide)
    have c2 : ¬("repositories:".data = "repositories: \x7b\x7d".data
        ∧ (sortIndexPairs m).map renderIndexLine ++ [[]] = [[]]) := by
      intro hcontra
      exact absurd hcontra.1 (by decide)
    have c4 : ¬((sortIndexPairs m).map renderIndexLine ++ [[]] = [[]]) := by
      intro h0
      have hlen := congrArg List.length h0
      simp only [List.length_append, List.length_map, List.length_singleton] at hlen
      exact hsne (List.length_eq_zero.mp (by omega))
    rw [unmarshalLines]
    rw [if_neg c1, if_neg c2, if_pos rfl, if_neg c4]
    simp [List.getLast?_concat, List.dropLast_concat, parseIndexLines_render _ hwfs]

theorem marshalActionIndex_sort (m : List (String × String)) :
    marshalActionIndex (sortIndexPairs m) = marshalActionIndex m := by
  by_cases hm : m.isEmpty = true
  · have hnil : m = [] := List.isEmpty_iff.mp hm
    subst hnil
    rfl
  · have hne : m ≠ [] := by simpa [List.isEmpty_iff] using hm
    have hsne : sortIndexPairs m ≠ [] := by
      intro h0
      have hperm := List.perm_insertionSort indexKeyLE m
      rw [sortIndexPairs] at h0
      rw [h0] at hperm
      exact hne hperm.symm.eq_nil
    have hsemp : ¬((sortIndexPairs m).isEmpty = true) := by
      simpa [List.isEmpty_iff] using hsne
    have hsame : sortIndexPairs (sortIndexPairs m) = sortIndexPairs m := by
      show List.insertionSort indexKeyLE (List.insertionSort indexKeyLE m)
        = List.insertionSort indexKeyLE m
      exact List.Sorted.insertionSort_eq (List.sorted_insertionSort indexKeyLE m)
    rw [marshalActionIndex, marshalActionIndex, if_neg hsemp, if_neg hm, hsame]

/-- C7: the serialized index lists owners in ascending order, and loading a
persisted index then re-saving it without any upsert reproduces the file
byte for byte. -/
theorem indexSerialization_sorted_round_trip (m : List (String × String))
    (hwf : ∀ p ∈ m, wfIndexEntry p) :
    List.Sorted indexKeyLE (sortIndexPairs m)
    ∧ unmarshalActionIndex (marshalActionIndex m) = some (some (sortIndexPairs m))
    ∧ marshalActionIndex (sortIndexPairs m) = marshalActionIndex m :=
  ⟨List.sorted_insertionSort indexKeyLE m, unmarshal_marshal m hwf,
    marshalActionIndex_sort m⟩

/-- Witness for C7 on a concrete two-owner index. -/
theorem indexSerialization_sorted_round_trip_witness :
    List.Sorted indexKeyLE (sortIndexPairs [("repoB", "bb"), ("repoA", "aa")])
    ∧ unmarshalActionIndex (marshalActionIndex [("repoB", "bb"), ("repoA", "aa")])
        = some (some (sortIndexPairs [("repoB", "bb"), ("repoA", "aa")]))
    ∧ marshalActionIndex (sortIndexPairs [("repoB", "bb"), ("repoA", "aa")])
        = marshalActionIndex [("repoB", "bb"), ("repoA", "aa")] :=
  indexSerialization_sorted_round_trip [("repoB", "bb"), ("repoA", "aa")] (by decide)

/-- C9: an existing index file that unmarshals successfully but leaves the
`repositories` mapping nil (for example an empty file) drives both upsert
operations into an assignment on a nil map — a panic, not an empty index. -/
theorem updateIndex_nil_map_panics (file repoName hash : String)
    (h : unmarshalActionIndex file = some none) :
    updateActionIndex (some file) repoName hash = UpdateOutcome.nilMapPanic
    ∧ updateDependabotIndex (some file) repoName hash = UpdateOutcome.nilMapPanic := by
  constructor
  · simp [updateActionIndex, h]
  · simp [updateDependabotIndex, h]

/-- Witness for C9: the empty index file panics both updates. -/
theorem updateIndex_nil_map_panics_witness :
    updateActionIndex (some "") "repoA" "aa" = UpdateOutcome.nilMapPanic
    ∧ updateDependabotIndex (some "") "repoA" "aa" = UpdateOutcome.nilMapPanic :=
  updateIndex_nil_map_panics "" "repoA" "aa" (by decide)

/-! ## Repository manifest (`updateRepositoriesManifest`, main.go) -/

/-- `updateRepositoriesManifest` from main.go on the persisted owner list:
return unchanged when the owner is already listed, otherwise append it and
sort ascending (`sort.Strings`). -/
def updateRepositoriesManifest (repos : List String) (repoName : String) : List String :=
  if repos.contains repoName then repos
  else List.insertionSort (· ≤ ·) (repos ++ [repoName])

/-- C8: the manifest is an ordered, deduplicated, append-only set — after an
update the owner is listed exactly once, the list is sorted ascending, every
previously listed owner is retained, and an already-present owner changes
nothing. -/
theorem updateRepositoriesManifest_invariants (repos : List String) (owner : String)
    (hsorted : List.Sorted (· ≤ ·) repos) (hnd : repos.Nodup) :
    owner ∈ updateRepositoriesManifest repos owner
    ∧ (updateRepositoriesManifest repos owner).count owner = 1
    ∧ List.Sorted (· ≤ ·) (updateRepositoriesManifest repos owner)
    ∧ (∀ x ∈ repos, x ∈ updateRepositoriesManifest repos owner)
    ∧ (updateRepositoriesManifest repos owner).Nodup
    ∧ (owner ∈ repos → updateRepositoriesManifest repos owner = repos) := by
  by_cases hmem : repos.contains owner = true
  · have hmem' : owner ∈ repos := by simpa using hmem
    have hupd : updateRepositoriesManifest repos owner = repos := by
      rw [updateRepositoriesManifest, if_pos hmem]
    rw [hupd]
    exact ⟨hmem', List.count_eq_one_of_mem hnd hmem', hsorted, fun x hx => hx, hnd,
      fun _ => rfl⟩
  · have hmem' : owner ∉ repos := by simpa using hmem
    have hupd : updateRepositoriesManifest repos owner
        = List.insertionSort (· ≤ ·) (repos ++ [owner]) := by
      rw [updateRepositoriesManifest, if_neg hmem]
    have hperm : List.Perm (List.insertionSort (· ≤ ·) (repos ++ [owner]))
        (repos ++ [owner]) :=
      List.perm_insertionSort _ _
    rw [hupd]
    refine ⟨?_, ?_, ?_, ?_, ?_, ?_⟩
    · exact hperm.mem_iff.mpr (by simp)
    · rw [hperm.count_eq, List.count_append]
      simp [List.count_eq_zero.mpr hmem']
    · exact List.sorted_insertionSort _ _
    · intro x hx
      exact hperm.mem_iff.mpr (by simp [hx])
    · refine hperm.nodup_iff.mpr ?_
      simp [List.nodup_append, hnd, hmem']
    · intro hcontra
      exact absurd hcontra hmem'

/-- Witness for C8: inserting `"b"` into the manifest `["a", "c"]`. -/
theorem updateRepositoriesManifest_invariants_witness :
    "b" ∈ updateRepositoriesManifest ["a", "c"] "b"
    ∧ (updateRepositoriesManifest ["a", "c"] "b").count "b" = 1
    ∧ List.Sorted (· ≤ ·) (updateRepositoriesManifest ["a", "c"] "b")
    ∧ (∀ x ∈ ["a", "c"], x ∈ updateRepositoriesManifest ["a", "c"] "b")
    ∧ (updateRepositoriesManifest ["a", "c"] "b").Nodup
    ∧ ("b" ∈ ["a", "c"] → updateRepositoriesManifest ["a", "c"] "b" = ["a", "c"]) :=
  updateRepositoriesManifest_invariants ["a", "c"] "b"
    (by
      refine List.sorted_cons.mpr ⟨?_, ?_⟩
      · intro b hb
        simp only [List.mem_singleton] at hb
        subst hb
        exact String.le_iff_toList_le.mpr (by decide)
      · simp)
    (by decide)

/-! ## Reporting stage file placement (`generateReadmeFiles`, main.go) -/

/-- The effect of `generateReadmeFiles` on one collection directory's file
names: `os.WriteFile` places a `README.md` next to `index.yaml` and the
blobs (creating the name when absent, overwriting otherwise). -/
def generateReadmeFile (files : List String) : List String :=
  if "README.md" ∈ files then files else files ++ ["README.md"]

/-- C10: the deletion criterion of garbage collection is purely
filename-based — every file other than `index.yaml` whose (extension-
stripped, for workflow collections) name is not a referenced digest is
deleted, including the `README.md` the reporting stage wrote into the same
directory. -/
theorem garbageCollect_filename_based (index : List (String × String))
    (files : List String) (hdigest : ∀ v ∈ hashesInUse index, v.length = 64) :
    "README.md" ∉ garbageCollectFiles index (generateReadmeFile files)
    ∧ (∀ f ∈ files, f ≠ "index.yaml" →
        (hashesInUse index).contains (trimExtS f) = false →
        f ∉ garbageCollectFiles index files)
    ∧ (∀ f ∈ files, f ≠ "index.yaml" →
        (hashesInUse index).contains f = false →
        f ∉ garbageCollectDependabotFiles index files) := by
  refine ⟨?_, ?_, ?_⟩
  · intro hmem
    rw [garbageCollectFiles_eq_filter] at hmem
    have hpred := (List.mem_filter.mp hmem).2
    simp only [Bool.or_eq_true, beq_iff_eq] at hpred
    rcases hpred with h0 | h0
    · exact absurd h0 (by decide)
    · have h0' : trimExtS "README.md" ∈ hashesInUse index := by simpa using h0
      have h6 := hdigest _ h0'
      rw [show trimExtS "README.md" = "README" from rfl] at h6
      exact absurd h6 (by decide)
  · intro f hf hne hc hmem
    rw [garbageCollectFiles_eq_filter] at hmem
    have hpred := (List.mem_filter.mp hmem).2
    simp only [hne, Bool.or_eq_true, beq_iff_eq, false_or] at hpred
    rw [hc] at hpred
    exact Bool.false_ne_true hpred
  · intro f hf hne hc hmem
    rw [garbageCollectDependabotFiles_eq_filter] at hmem
    have hpred := (List.mem_filter.mp hmem).2
    simp only [hne, Bool.or_eq_true, beq_iff_eq, false_or] at hpred
    rw [hc] at hpred
    exact Bool.false_ne_true hpred

/-- Witness for C10 with a one-owner index holding a 64-character digest:
the freshly written `README.md` does not survive collection. -/
theorem garbageCollect_filename_based_witness :
    "README.md" ∉ garbageCollectFiles
        [("repoA", "0123456789abcdef0123456789abcdef0123456789abcdef0123456789abcdef")]
        (generateReadmeFile ["index.yaml"])
    ∧ "README.md" ∉ garbageCollectDependabotFiles
        [("repoA", "0123456789abcdef0123456789abcdef0123456789abcdef0123456789abcdef")]
        ["index.yaml", "README.md"] :=
  ⟨(garbageCollect_filename_based
      [("repoA", "0123456789abcdef0123456789abcdef0123456789abcdef0123456789abcdef")]
      ["index.yaml"] (by decide)).1,
   (garbageCollect_filename_based
      [("repoA", "0123456789abcdef0123456789abcdef0123456789abcdef0123456789abcdef")]
      ["index.yaml", "README.md"] (by decide)).2.2 "README.md"
      (by decide) (by decide) (by decide)⟩

end DotGithubIndexer
